import Mathlib

/-!
Verification of the workflow invocation engine in
`app/api/workflows.py` (the `invoke` endpoint, its `track_invocation`
closure and the `send_message` streaming generator).

The development shallowly embeds:

* the JSON round trip used by the schema buffering logic
  (`SimpleJsonOutputParser().parse` / `json.dumps` / `str.split("\n")`),
* the per-step output-schema selection of `invoke`,
* the streaming generator `send_message` as a trace of actions
  (stream yields and telemetry emissions),
* the synchronous (non-streaming) tail of `invoke`.

Python strings are modelled as `List Char`; machine text payloads that
are only carried around (names, ids) are Lean `String`s.
-/

namespace Workflows

/-! ## JSON values

Model of the structured data handled by `json.dumps` (Python stdlib)
and `SimpleJsonOutputParser` (which on well-formed input behaves as
`json.loads`).  Numbers are modelled as integers; object member order
is the insertion order that `json.dumps` preserves. -/

inductive Json where
  | null : Json
  | bool (b : Bool) : Json
  | num (n : Int) : Json
  | str (s : List Char) : Json
  | arr (elems : List Json) : Json
  | obj (members : List (List Char × Json)) : Json

/-! ### Serialization, mirroring `json.dumps` with default separators -/

/-- Escaping of one character inside a JSON string, as `json.dumps`
does for the characters it must escape.  (Python also escapes other
control characters and, with `ensure_ascii`, non-ASCII characters as
`\uXXXX`; those are modelled as passed through raw, which keeps the
serialization newline-free, the property the line splitting relies
on.) -/
def escapeChar (c : Char) : List Char :=
  if c = '"' then ['\\', '"']
  else if c = '\\' then ['\\', '\\']
  else if c = '\n' then ['\\', 'n']
  else if c = '\t' then ['\\', 't']
  else if c = '\r' then ['\\', 'r']
  else if c = Char.ofNat 8 then ['\\', 'b']
  else if c = Char.ofNat 12 then ['\\', 'f']
  else [c]

/-- Body of a serialized JSON string (without the surrounding quotes). -/
def escBody (s : List Char) : List Char :=
  (s.map escapeChar).flatten

/-- Serialized JSON string, quotes included. -/
def dumpStr (s : List Char) : List Char :=
  '"' :: escBody s ++ ['"']

/-- Decimal digits of a natural number, as `str` renders them. -/
def natToChars (n : Nat) : List Char :=
  if h : n < 10 then [Char.ofNat (48 + n)]
  else natToChars (n / 10) ++ [Char.ofNat (48 + n % 10)]
termination_by n
decreasing_by exact Nat.div_lt_self (by omega) (by omega)

/-- Decimal rendering of an integer, as `json.dumps` emits it. -/
def intToChars : Int → List Char
  | .ofNat n => natToChars n
  | .negSucc m => '-' :: natToChars (m + 1)

/-- The rendering of the JSON `null` literal. -/
def nullChars : List Char := ['n', 'u', 'l', 'l']

/-- The rendering of the JSON `true` literal. -/
def trueChars : List Char := ['t', 'r', 'u', 'e']

/-- The rendering of the JSON `false` literal. -/
def falseChars : List Char := ['f', 'a', 'l', 's', 'e']

mutual

/-- `json.dumps` with the default separators `", "` and `": "`. -/
def dumps : Json → List Char
  | .null => nullChars
  | .bool true => trueChars
  | .bool false => falseChars
  | .num n => intToChars n
  | .str s => dumpStr s
  | .arr [] => ['[', ']']
  | .arr (x :: xs) => '[' :: (dumps x ++ dumpsArrTail xs) ++ [']']
  | .obj [] => ['{', '}']
  | .obj (m :: ms) => '{' :: (dumpsMember m ++ dumpsObjTail ms) ++ ['}']

/-- Remaining array elements, each preceded by the `", "` separator. -/
def dumpsArrTail : List Json → List Char
  | [] => []
  | x :: xs => ',' :: ' ' :: (dumps x ++ dumpsArrTail xs)

/-- One object member, `"key": value`. -/
def dumpsMember : List Char × Json → List Char
  | (k, v) => dumpStr k ++ ':' :: ' ' :: dumps v

/-- Remaining object members, each preceded by the `", "` separator. -/
def dumpsObjTail : List (List Char × Json) → List Char
  | [] => []
  | m :: ms => ',' :: ' ' :: (dumpsMember m ++ dumpsObjTail ms)

end

/-! ### Parsing -/

/-- JSON whitespace. -/
def isWsChar (c : Char) : Bool :=
  c = ' ' || c = '\n' || c = '\t' || c = '\r'

def isDigitChar (c : Char) : Bool :=
  '0' ≤ c && c ≤ '9'

def skipWs : List Char → List Char
  | [] => []
  | c :: rest => if isWsChar c then skipWs rest else c :: rest

/-- Value of a decimal digit character. -/
def digitVal (c : Char) : Option Nat :=
  if isDigitChar c then some (c.toNat - 48) else none

/-- Maximal-munch decimal digit accumulation. -/
def parseDigitsAux (acc : Nat) : List Char → Nat × List Char
  | [] => (acc, [])
  | c :: rest =>
    match digitVal c with
    | some d => parseDigitsAux (acc * 10 + d) rest
    | none => (acc, c :: rest)

/-- Parse a nonempty digit run. -/
def parseDigits (cs : List Char) : Option (Nat × List Char) :=
  match cs with
  | [] => none
  | c :: _ => if isDigitChar c then some (parseDigitsAux 0 cs) else none

/-- Decoding of a backslash escape inside a JSON string. -/
def unescape (e : Char) : Option Char :=
  if e = '"' then some '"'
  else if e = '\\' then some '\\'
  else if e = '/' then some '/'
  else if e = 'n' then some '\n'
  else if e = 't' then some '\t'
  else if e = 'r' then some '\r'
  else if e = 'b' then some (Char.ofNat 8)
  else if e = 'f' then some (Char.ofNat 12)
  else none

/-- Parse the body of a JSON string after the opening quote; returns the
decoded characters and the input after the closing quote. -/
def parseStrBody : List Char → Option (List Char × List Char)
  | [] => none
  | c :: rest =>
    if c = '"' then some ([], rest)
    else if c = '\\' then
      match rest with
      | [] => none
      | e :: rest2 =>
        match unescape e with
        | none => none
        | some d =>
          match parseStrBody rest2 with
          | none => none
          | some (s, r) => some (d :: s, r)
    else
      match parseStrBody rest with
      | none => none
      | some (s, r) => some (c :: s, r)

mutual

/-- Recursive-descent JSON value parser.  `fuel` bounds the recursion
depth; `parseJson` below supplies enough fuel for any input. -/
def parseVal : Nat → List Char → Option (Json × List Char)
  | 0, _ => none
  | f + 1, cs =>
    match skipWs cs with
    | [] => none
    | c :: rest =>
      if c = '"' then
        match parseStrBody rest with
        | none => none
        | some (s, r) => some (.str s, r)
      else if c = '{' then
        match skipWs rest with
        | [] => none
        | c2 :: r2 =>
          if c2 = '}' then some (.obj [], r2)
          else
            match parseMembers f (c2 :: r2) with
            | none => none
            | some (ms, r3) => some (.obj ms, r3)
      else if c = '[' then
        match skipWs rest with
        | [] => none
        | c2 :: r2 =>
          if c2 = ']' then some (.arr [], r2)
          else
            match parseItems f (c2 :: r2) with
            | none => none
            | some (vs, r3) => some (.arr vs, r3)
      else if c = 'n' then
        match rest with
        | 'u' :: 'l' :: 'l' :: r => some (.null, r)
        | _ => none
      else if c = 't' then
        match rest with
        | 'r' :: 'u' :: 'e' :: r => some (.bool true, r)
        | _ => none
      else if c = 'f' then
        match rest with
        | 'a' :: 'l' :: 's' :: 'e' :: r => some (.bool false, r)
        | _ => none
      else if c = '-' then
        match parseDigits rest with
        | none => none
        | some (n, r) => some (.num (-(n : Int)), r)
      else if isDigitChar c then
        match parseDigits (c :: rest) with
        | none => none
        | some (n, r) => some (.num (n : Int), r)
      else none

/-- Comma-separated array elements up to and including the closing
bracket. -/
def parseItems : Nat → List Char → Option (List Json × List Char)
  | 0, _ => none
  | f + 1, cs =>
    match parseVal f cs with
    | none => none
    | some (v, r) =>
      match skipWs r with
      | [] => none
      | c :: r2 =>
        if c = ']' then some ([v], r2)
        else if c = ',' then
          match parseItems f r2 with
          | none => none
          | some (vs, r3) => some (v :: vs, r3)
        else none

/-- Comma-separated object members up to and including the closing
brace. -/
def parseMembers : Nat → List Char → Option (List (List Char × Json) × List Char)
  | 0, _ => none
  | f + 1, cs =>
    match skipWs cs with
    | [] => none
    | c :: r =>
      if c = '"' then
        match parseStrBody r with
        | none => none
        | some (k, r1) =>
          match skipWs r1 with
          | [] => none
          | c1 :: r2 =>
            if c1 = ':' then
              match parseVal f r2 with
              | none => none
              | some (v, r3) =>
                match skipWs r3 with
                | [] => none
                | c2 :: r4 =>
                  if c2 = '}' then some ([(k, v)], r4)
                  else if c2 = ',' then
                    match parseMembers f r4 with
                    | none => none
                    | some (ms, r5) => some ((k, v) :: ms, r5)
                  else none
            else none
      else none

end

/-- Fuel sufficient for any input of the given length. -/
def parseFuel (t : List Char) : Nat := t.length + 1

/-- The input does not begin with a decimal digit (so a preceding
maximal-munch number parse stops exactly at its end). -/
def noDigitHead : List Char → Prop
  | [] => True
  | c :: _ => isDigitChar c = false

/-- Top-level JSON parse: the whole input, up to trailing whitespace,
must be one JSON value — the behavior of `json.loads`, which is what
`SimpleJsonOutputParser().parse` performs on well-formed input. -/
def parseJson (t : List Char) : Option Json :=
  match parseVal (parseFuel t) t with
  | none => none
  | some (v, r) => if skipWs r = [] then some v else none

mutual

/-- Nesting budget the parser spends on one value: one unit per
`parseVal` entry plus one per `parseItems`/`parseMembers` entry. -/
def jsize : Json → Nat
  | .null => 1
  | .bool _ => 1
  | .num _ => 1
  | .str _ => 1
  | .arr xs => 1 + jsizeItems xs
  | .obj ms => 1 + jsizeMembers ms

/-- Budget of a nonempty array-element sequence. -/
def jsizeItems : List Json → Nat
  | [] => 0
  | x :: xs => 1 + jsize x + jsizeItems xs

/-- Budget of a nonempty object-member sequence. -/
def jsizeMembers : List (List Char × Json) → Nat
  | [] => 0
  | m :: ms => 1 + jsize m.2 + jsizeMembers ms

end

/-! ## Schema buffering (`send_message`, schema branch)

When a step's `output_schema` is set, `send_message` accumulates the
step's tokens into `schema_tokens`, parses them once the token stream
completes, falls back to `{}` on a parse error, re-serializes with
`json.dumps`, and splits the result on `"\n"`, emitting one fragment per
line. -/

/-- `str.split("\n")`: split on every newline, keeping empty pieces. -/
def splitOnNL : List Char → List (List Char)
  | [] => [[]]
  | c :: rest =>
    if c = '\n' then [] :: splitOnNL rest
    else
      match splitOnNL rest with
      | [] => [[c]]
      | g :: gs => (c :: g) :: gs

/-- `parsed_res`: the parse of the accumulated tokens, or the empty
object when parsing raises (`except Exception: parsed_res = {}`). -/
def parsedOrEmpty (t : List Char) : Json :=
  match parseJson t with
  | some v => v
  | none => Json.obj []

/-- The `data` payloads of the fragments a schema-bearing step emits:
`json.dumps(parsed_res).split("\n")`. -/
def schemaFragments (t : List Char) : List (List Char) :=
  splitOnNL (dumps (parsedOrEmpty t))

/-! ## Output-schema selection (`invoke`, per-step loop)

For each step, `invoke` starts from the agent's declared
`outputSchema`, replaces it by the caller's per-step override
`output_schemas[step.id]` when that is truthy, and otherwise, on the
last step only, by the truthy run-level `body.outputSchema`.  Schemas
are strings; Python truthiness makes `None` and `""` both falsy. -/

/-- Python truthiness of an optional string. -/
def truthy : Option (List Char) → Bool
  | none => false
  | some s => !s.isEmpty

/-- The `output_schema` chosen for one step by `invoke`. -/
def selectOutputSchema (agentSchema stepOverride lastOutputSchema : Option (List Char))
    (isLast : Bool) : Option (List Char) :=
  if truthy stepOverride then stepOverride
  else if truthy lastOutputSchema && isLast then lastOutputSchema
  else agentSchema

/-! ## The streaming generator `send_message` as an action trace

`send_message` is an async generator.  Its externally visible behavior
is a sequence of actions: *yields* of stream fragments (each
`async for val in stream_dict_keys({...}): yield val` block —
`stream_dict_keys`, `app/utils/helpers`, is not under `src/` and is
modelled from the spec as the thin transport adapter emitting one
`FragmentEvent` per dictionary) and *telemetry emissions* (each call of
`track_agent_invocation`, `app/utils/analytics`, not under `src/`,
modelled from the spec as handing exactly one TelemetryRecord to the
analytics sink).

A consumer drives the generator: the generator only executes up to the
yield that satisfies the consumer's last request, which
`execUpToYields` below makes precise. -/

/-- One recorded tool invocation from a step's `intermediate_steps`:
`(agent_action_message_log, tool_response)` with `tool` and
`tool_input` on the log.  `tool_input` is modelled in its serialized
form. -/
structure ToolCall where
  tool : String
  toolInput : String
  response : String

/-- The per-step slice of the workflow run's result dictionary
(`workflow_result["steps"][index]`). -/
structure StepRunResult where
  output : String
  intermediate_steps : List ToolCall

/-- One entry of the `workflow_steps` list built by `invoke`, together
with the data the run produced for it: the step's agent, its selected
`output_schema`, the tokens its producer pushed through the streaming
callback (`CustomAsyncIteratorCallbackHandler`, not under `src/`,
modelled from the spec as the per-step TokenChannel), the cost counter
accumulated by its `CostCalcAsyncHandler`, and its run result. -/
structure WorkflowStep where
  agentId : String
  agent_name : String
  output_schema : Option (List Char)
  tokens : List (List Char)
  cost : Nat
  result : StepRunResult

/-- Request-level identifiers closed over by `invoke`. -/
structure InvokeCtx where
  workflow_id : String
  user_id : String
  session_id : String

/-- One telemetry hand-off (`track_agent_invocation` payload).  On the
success path the payload carries the step's run result and cost
counters; on the failure path it carries the error text and status
code 500 instead. -/
structure TelemetryRecord where
  workflow_id : String
  agentId : String
  user_id : String
  session_id : String
  stepIdx : Nat
  result : Option StepRunResult
  usage : Option Nat
  error : Option String
  status_code : Option Nat

/-- A fragment event on the multiplexed stream.  `stepIdx` is the plan
position of the loop iteration that emitted the event. -/
inductive FragmentEvent where
  | token (stepIdx : Nat) (agentName : String) (data : List Char)
  | parsedLine (stepIdx : Nat) (agentName : String) (data : List Char)
  | functionCall (stepIdx : Nat) (stepName : String) (function : String)
      (args : String) (response : String)
  | errorEv (msg : String)

/-- One externally visible action of the generator. -/
inductive Action where
  | yieldEv (e : FragmentEvent)
  | telemetry (r : TelemetryRecord)

/-- Success-path telemetry payload for one step. -/
def successRecord (ctx : InvokeCtx) (i : Nat) (st : WorkflowStep) : TelemetryRecord :=
  ⟨ctx.workflow_id, st.agentId, ctx.user_id, ctx.session_id, i,
    some st.result, some st.cost, none, none⟩

/-- Failure-path telemetry payload for one step (`error: str(error),
status_code: 500`, no usage counters). -/
def failureRecord (ctx : InvokeCtx) (err : String) (i : Nat) (st : WorkflowStep) :
    TelemetryRecord :=
  ⟨ctx.workflow_id, st.agentId, ctx.user_id, ctx.session_id, i,
    none, none, some err, some 500⟩

/-- The `track_invocation` closure of `invoke`: one
`track_agent_invocation` call per entry of `workflow_steps`, in order.
The records produced, starting at plan position `i`. -/
def trackLoop (ctx : InvokeCtx) : Nat → List WorkflowStep → List TelemetryRecord
  | _, [] => []
  | i, st :: rest => successRecord ctx i st :: trackLoop ctx (i + 1) rest

/-- All records emitted by one call of `track_invocation`. -/
def track_invocation (ctx : InvokeCtx) (steps : List WorkflowStep) :
    List TelemetryRecord :=
  trackLoop ctx 0 steps

/-- The fragment events one step contributes to the stream: raw tokens
when no schema is set, otherwise the line-split re-serialized parse of
the accumulated tokens. -/
def stepFragmentEvents (i : Nat) (st : WorkflowStep) : List FragmentEvent :=
  if truthy st.output_schema then
    (schemaFragments st.tokens.flatten).map (FragmentEvent.parsedLine i st.agent_name)
  else
    st.tokens.map (FragmentEvent.token i st.agent_name)

/-- The function-call events one step contributes after the run result
is known: one per recorded tool invocation whose `function` and `args`
are both truthy (`if function and args:`). -/
def stepTraceEvents (i : Nat) (st : WorkflowStep) : List FragmentEvent :=
  st.result.intermediate_steps.filterMap fun s =>
    if s.tool ≠ "" ∧ s.toolInput ≠ "" then
      some (.functionCall i st.agent_name s.tool s.toolInput s.response)
    else none

/-- First loop of `send_message`: drain each step's fragment sequence
to exhaustion, in plan order, starting at position `i`. -/
def fragSection : Nat → List WorkflowStep → List Action
  | _, [] => []
  | i, st :: rest =>
    (stepFragmentEvents i st).map Action.yieldEv ++ fragSection (i + 1) rest

/-- Second loop of `send_message`, entered after `await task` succeeds:
for each step, first `if SEGMENT_WRITE_KEY: track_invocation(...)`
(which emits one record for *every* step), then that step's
function-call events. -/
def tailSection (segKey : Bool) (allRecords : List TelemetryRecord) :
    Nat → List WorkflowStep → List Action
  | _, [] => []
  | i, st :: rest =>
    (if segKey then allRecords.map Action.telemetry else [])
      ++ (stepTraceEvents i st).map Action.yieldEv
      ++ tailSection segKey allRecords (i + 1) rest

/-- The full action trace of `send_message` on a run with no failure,
when the consumer drains the generator to completion. -/
def successTrace (segKey : Bool) (ctx : InvokeCtx) (steps : List WorkflowStep) :
    List Action :=
  fragSection 0 steps ++ tailSection segKey (track_invocation ctx steps) 0 steps

/-- The `except` branch of `send_message`: one error event, then (when
the segment key is set) one failure record per step of the plan,
starting at position `i`. -/
def failLoop (ctx : InvokeCtx) (err : String) : Nat → List WorkflowStep → List Action
  | _, [] => []
  | i, st :: rest =>
    Action.telemetry (failureRecord ctx err i st) :: failLoop ctx err (i + 1) rest

/-- Everything the `except Exception as error:` handler does. -/
def exceptBranch (segKey : Bool) (ctx : InvokeCtx) (steps : List WorkflowStep)
    (err : String) : List Action :=
  Action.yieldEv (.errorEv err) :: (if segKey then failLoop ctx err 0 steps else [])

/-- Trace of a streaming run on which an exception surfaces after the
first `k` actions of the normal path have executed: the executed
prefix followed by the `except` branch. -/
def failureStreamTrace (segKey : Bool) (ctx : InvokeCtx) (steps : List WorkflowStep)
    (k : Nat) (err : String) : List Action :=
  (successTrace segKey ctx steps).take k ++ exceptBranch segKey ctx steps err

/-- The actions a generator executes when its consumer requests only
`k` items: everything up to and including the `k`-th yield; actions
beyond that yield never run. -/
def execUpToYields : Nat → List Action → List Action
  | 0, _ => []
  | _ + 1, [] => []
  | k + 1, .telemetry r :: rest => .telemetry r :: execUpToYields (k + 1) rest
  | k + 1, .yieldEv e :: rest => .yieldEv e :: execUpToYields k rest

/-- The stream the consumer sees. -/
def yieldsOf (tr : List Action) : List FragmentEvent :=
  tr.filterMap fun a =>
    match a with
    | .yieldEv e => some e
    | .telemetry _ => none

/-- The telemetry records handed to the analytics sink. -/
def telemetryRecords (tr : List Action) : List TelemetryRecord :=
  tr.filterMap fun a =>
    match a with
    | .telemetry r => some r
    | .yieldEv _ => none

/-- Number of token/parsed-line fragments of the whole run. -/
def fragCount (steps : List WorkflowStep) : Nat :=
  (fragSection 0 steps).length

/-- The synchronous (non-streaming) tail of `invoke`:
`output = await workflow.arun(input)` with no surrounding
`try`/`except`, then the guarded `track_invocation(output)`.  A raised
exception propagates out of the handler and emits nothing. -/
def syncInvoke (segKey : Bool) (ctx : InvokeCtx) (steps : List WorkflowStep)
    (runResult : Except String Unit) : List TelemetryRecord × Except String Unit :=
  match runResult with
  | .error e => ([], .error e)
  | .ok _ => ((if segKey then track_invocation ctx steps else []), .ok ())

/-- Plan-position tag of a token or parsed-line fragment. -/
def fragStepIdx : FragmentEvent → Option Nat
  | .token i _ _ => some i
  | .parsedLine i _ _ => some i
  | _ => none

/-- Plan-position tag of a function-call event. -/
def funcStepIdx : FragmentEvent → Option Nat
  | .functionCall i _ _ _ _ => some i
  | _ => none

/-- Payload of an error event. -/
def errorData : FragmentEvent → Option String
  | .errorEv m => some m
  | _ => none

/-- Phase of an event: token/parsed-line fragments first, result-driven
events (function-call traces, errors) second. -/
def phaseOf : FragmentEvent → Nat
  | .token _ _ _ => 0
  | .parsedLine _ _ _ => 0
  | .functionCall _ _ _ _ _ => 1
  | .errorEv _ => 1

/-- Function-call payload of an event emitted by the loop iteration of
plan position `j`. -/
def funcDataAt (j : Nat) : FragmentEvent → Option (String × String × String)
  | .functionCall i _ fn args resp => if i = j then some (fn, args, resp) else none
  | _ => none

/-- The tool invocations of a step's trace that `send_message` surfaces:
those whose `function` and `args` are both truthy. -/
def toolCallData (st : WorkflowStep) : List (String × String × String) :=
  st.result.intermediate_steps.filterMap fun s =>
    if s.tool ≠ "" ∧ s.toolInput ≠ "" then some (s.tool, s.toolInput, s.response)
    else none

/-! ## Concrete inputs used to evaluate the model -/

def exCtx : InvokeCtx := ⟨"wf1", "user1", "sess1"⟩

/-- A schema-less step whose producer emits two tokens and whose trace
is empty. -/
def exStepA : WorkflowStep :=
  ⟨"agA", "alpha", none, [['H'], ['i']], 3, ⟨"Hi", []⟩⟩

/-- A second schema-less step. -/
def exStepB : WorkflowStep :=
  ⟨"agB", "beta", none, [['y', 'o']], 4, ⟨"yo", []⟩⟩

/-- A step whose run result records one tool invocation with truthy
`function` but falsy (empty) `args`. -/
def exToolStep : WorkflowStep :=
  ⟨"agC", "gamma", none, [], 0, ⟨"out", [⟨"foo", "", "resp"⟩]⟩⟩

/-- A step whose run result records one tool invocation with truthy
`function` and truthy `args`. -/
def exTraceStep : WorkflowStep :=
  ⟨"agD", "delta", none, [], 0, ⟨"out", [⟨"bar", "x", "resp"⟩]⟩⟩

/-- A schema-bearing step whose producer emits text that is not valid
JSON. -/
def exSchemaStep : WorkflowStep :=
  ⟨"agE", "eps", some ['s'], [['n', 'o'], ['p', 'e']], 1, ⟨"", []⟩⟩

/-! ## Basic trace lemmas -/

example : parseJson ('[' :: '1' :: ']' :: []) = some (Json.arr [Json.num 1]) := rfl
example : parseJson ('x' :: []) = none := rfl
example : dumps (Json.arr [Json.num 1, Json.bool true]) =
    ('[' :: '1' :: ',' :: ' ' :: 't' :: 'r' :: 'u' :: 'e' :: ']' :: []) := by
  simp [dumps, dumpsArrTail, intToChars, natToChars, trueChars]

theorem telemetryRecords_append (a b : List Action) :
    telemetryRecords (a ++ b) = telemetryRecords a ++ telemetryRecords b := by
  simp [telemetryRecords]

theorem yieldsOf_append (a b : List Action) :
    yieldsOf (a ++ b) = yieldsOf a ++ yieldsOf b := by
  simp [yieldsOf]

theorem telemetryRecords_yields (l : List FragmentEvent) :
    telemetryRecords (l.map Action.yieldEv) = [] := by
  simp [telemetryRecords, List.filterMap_map]

theorem telemetryRecords_telemetry (l : List TelemetryRecord) :
    telemetryRecords (l.map Action.telemetry) = l := by
  simp only [telemetryRecords, List.filterMap_map]
  have : ((fun a => match a with
      | .telemetry r => some r
      | .yieldEv _ => none) ∘ Action.telemetry) = some := rfl
  rw [this, List.filterMap_some]

theorem yieldsOf_yields (l : List FragmentEvent) :
    yieldsOf (l.map Action.yieldEv) = l := by
  simp only [yieldsOf, List.filterMap_map]
  have : ((fun a => match a with
      | .yieldEv e => some e
      | .telemetry _ => none) ∘ Action.yieldEv) = some := rfl
  rw [this, List.filterMap_some]

theorem yieldsOf_telemetry (l : List TelemetryRecord) :
    yieldsOf (l.map Action.telemetry) = [] := by
  simp [yieldsOf, List.filterMap_map]

theorem telemetryRecords_fragSection (steps : List WorkflowStep) :
    ∀ i, telemetryRecords (fragSection i steps) = [] := by
  induction steps with
  | nil => intro i; rfl
  | cons st rest ih =>
    intro i
    simp [fragSection, telemetryRecords_append, telemetryRecords_yields, ih]

theorem trackLoop_length (ctx : InvokeCtx) (steps : List WorkflowStep) :
    ∀ i, (trackLoop ctx i steps).length = steps.length := by
  induction steps with
  | nil => intro i; rfl
  | cons st rest ih => intro i; simp [trackLoop, ih]

theorem telemetryRecords_tailSection_true (recs : List TelemetryRecord)
    (steps : List WorkflowStep) :
    ∀ i, (telemetryRecords (tailSection true recs i steps)).length
      = steps.length * recs.length := by
  induction steps with
  | nil => intro i; simp [tailSection, telemetryRecords]
  | cons st rest ih =>
    intro i
    simp only [tailSection, if_pos, telemetryRecords_append,
      telemetryRecords_telemetry, telemetryRecords_yields, List.length_append,
      List.length_nil, ih]
    simp [List.length_cons, Nat.succ_mul]
    omega

theorem telemetryRecords_tailSection_false (recs : List TelemetryRecord)
    (steps : List WorkflowStep) :
    ∀ i, telemetryRecords (tailSection false recs i steps) = [] := by
  induction steps with
  | nil => intro i; rfl
  | cons st rest ih =>
    intro i
    simp [tailSection, telemetryRecords_append, telemetryRecords_yields, ih]

/-- The success-path trace emits `n * n` telemetry records when the
segment key is set: `track_invocation`, which emits one record per
step, runs once per step. -/
theorem telemetryRecords_successTrace_true_length (ctx : InvokeCtx)
    (steps : List WorkflowStep) :
    (telemetryRecords (successTrace true ctx steps)).length
      = steps.length * steps.length := by
  simp [successTrace, telemetryRecords_append, telemetryRecords_fragSection,
    telemetryRecords_tailSection_true, track_invocation, trackLoop_length]

theorem telemetryRecords_successTrace_false (ctx : InvokeCtx)
    (steps : List WorkflowStep) :
    telemetryRecords (successTrace false ctx steps) = [] := by
  simp [successTrace, telemetryRecords_append, telemetryRecords_fragSection,
    telemetryRecords_tailSection_false]

theorem telemetryRecords_take_nil {l : List Action} (h : telemetryRecords l = [])
    (k : Nat) : telemetryRecords (l.take k) = [] := by
  rw [telemetryRecords, List.filterMap_eq_nil_iff] at h ⊢
  intro a ha
  exact h a ((List.take_sublist k l).subset ha)

theorem execUpToYields_zero (l : List Action) : execUpToYields 0 l = [] := by
  cases l with
  | nil => rfl
  | cons a rest => cases a <;> rfl

theorem fragSection_all_yields (steps : List WorkflowStep) :
    ∀ i, ∀ a ∈ fragSection i steps, ∃ e, a = Action.yieldEv e := by
  induction steps with
  | nil => intro i a ha; simp [fragSection] at ha
  | cons st rest ih =>
    intro i a ha
    simp only [fragSection, List.mem_append, List.mem_map] at ha
    rcases ha with ⟨e, _, rfl⟩ | ha
    · exact ⟨e, rfl⟩
    · exact ih (i + 1) a ha

theorem execUpToYields_all_yields (A : List Action)
    (hA : ∀ a ∈ A, ∃ e, a = Action.yieldEv e) :
    ∀ (B : List Action) (k : Nat), k ≤ A.length →
      execUpToYields k (A ++ B) = A.take k := by
  induction A with
  | nil =>
    intro B k hk
    have hk0 : k = 0 := by simpa using hk
    subst hk0
    rw [List.nil_append, execUpToYields_zero, List.take_nil]
  | cons a A' ih =>
    intro B k hk
    obtain ⟨e, rfl⟩ := hA a (List.mem_cons_self a A')
    match k with
    | 0 => rfl
    | k + 1 =>
      simp only [List.cons_append, execUpToYields, List.take_succ_cons,
        List.append_eq]
      rw [ih (fun x hx => hA x (List.mem_cons_of_mem _ hx)) B k
        (by simpa using hk)]

/-! ## Ordering lemmas -/

theorem pairwise_le_replicate (n i : Nat) :
    List.Pairwise (· ≤ ·) (List.replicate n i) := by
  induction n with
  | zero => simp
  | succ n ih =>
    rw [List.replicate_succ]
    exact List.Pairwise.cons
      (fun b hb => le_of_eq (List.eq_of_mem_replicate hb).symm) ih

theorem filterMap_const_replicate {α : Type} (f : α → Option Nat) (i : Nat) :
    ∀ l : List α, (∀ a ∈ l, f a = some i) →
      l.filterMap f = List.replicate l.length i := by
  intro l
  induction l with
  | nil => intro _; rfl
  | cons a l ih =>
    intro h
    rw [List.filterMap_cons, h a (List.mem_cons_self a l), List.length_cons,
      List.replicate_succ, ih fun x hx => h x (List.mem_cons_of_mem _ hx)]

theorem fragStepIdx_stepFragmentEvents (i : Nat) (st : WorkflowStep) :
    (stepFragmentEvents i st).filterMap fragStepIdx
      = List.replicate (stepFragmentEvents i st).length i := by
  refine filterMap_const_replicate fragStepIdx i _ fun e he => ?_
  unfold stepFragmentEvents at he
  by_cases h : truthy st.output_schema
  · rw [if_pos h, List.mem_map] at he
    obtain ⟨d, _, rfl⟩ := he
    rfl
  · rw [if_neg h, List.mem_map] at he
    obtain ⟨d, _, rfl⟩ := he
    rfl

theorem stepTraceEvents_shape (i : Nat) (st : WorkflowStep) :
    ∀ e ∈ stepTraceEvents i st,
      ∃ fn args resp, e = FragmentEvent.functionCall i st.agent_name fn args resp := by
  intro e he
  unfold stepTraceEvents at he
  rw [List.mem_filterMap] at he
  obtain ⟨s, _, hs⟩ := he
  by_cases h : s.tool ≠ "" ∧ s.toolInput ≠ ""
  · rw [if_pos h] at hs
    exact ⟨s.tool, s.toolInput, s.response, (Option.some_inj.mp hs).symm⟩
  · rw [if_neg h] at hs
    cases hs

theorem fragStepIdx_stepTraceEvents (i : Nat) (st : WorkflowStep) :
    (stepTraceEvents i st).filterMap fragStepIdx = [] := by
  rw [List.filterMap_eq_nil_iff]
  intro e he
  obtain ⟨fn, args, resp, rfl⟩ := stepTraceEvents_shape i st e he
  rfl

/-- Fragment tags of the first loop's yields: the plan positions, each
repeated once per fragment, in increasing order starting at `i`. -/
theorem fragTags_fragSection (steps : List WorkflowStep) :
    ∀ i, (∀ t ∈ (yieldsOf (fragSection i steps)).filterMap fragStepIdx, i ≤ t)
      ∧ List.Pairwise (· ≤ ·)
          ((yieldsOf (fragSection i steps)).filterMap fragStepIdx) := by
  induction steps with
  | nil =>
    intro i
    refine ⟨?_, ?_⟩
    · intro t ht
      simp [fragSection, yieldsOf] at ht
    · simp [fragSection, yieldsOf]
  | cons st rest ih =>
    intro i
    have hblock : (yieldsOf ((stepFragmentEvents i st).map Action.yieldEv)).filterMap
        fragStepIdx = List.replicate (stepFragmentEvents i st).length i := by
      rw [yieldsOf_yields, fragStepIdx_stepFragmentEvents]
    have hsplit : (yieldsOf (fragSection i (st :: rest))).filterMap fragStepIdx
        = List.replicate (stepFragmentEvents i st).length i
          ++ (yieldsOf (fragSection (i + 1) rest)).filterMap fragStepIdx := by
      rw [fragSection, yieldsOf_append, List.filterMap_append, hblock]
    constructor
    · intro t ht
      rw [hsplit, List.mem_append] at ht
      rcases ht with ht | ht
      · exact le_of_eq (List.eq_of_mem_replicate ht).symm
      · exact le_trans (Nat.le_succ i) ((ih (i + 1)).1 t ht)
    · rw [hsplit, List.pairwise_append]
      refine ⟨pairwise_le_replicate _ _, (ih (i + 1)).2, ?_⟩
      intro a ha b hb
      rw [List.eq_of_mem_replicate ha]
      exact le_trans (Nat.le_succ i) ((ih (i + 1)).1 b hb)

/-- The second loop's yields carry no token/parsed-line fragments. -/
theorem fragTags_tailSection (segKey : Bool) (recs : List TelemetryRecord)
    (steps : List WorkflowStep) :
    ∀ i, (yieldsOf (tailSection segKey recs i steps)).filterMap fragStepIdx = [] := by
  induction steps with
  | nil => intro i; simp [tailSection, yieldsOf]
  | cons st rest ih =>
    intro i
    rw [tailSection, yieldsOf_append, yieldsOf_append, List.filterMap_append,
      List.filterMap_append, yieldsOf_yields, fragStepIdx_stepTraceEvents, ih]
    cases segKey <;> simp [yieldsOf_telemetry, yieldsOf]

theorem funcStepIdx_stepTraceEvents (i : Nat) (st : WorkflowStep) :
    (stepTraceEvents i st).filterMap funcStepIdx
      = List.replicate (stepTraceEvents i st).length i := by
  refine filterMap_const_replicate funcStepIdx i _ fun e he => ?_
  obtain ⟨fn, args, resp, rfl⟩ := stepTraceEvents_shape i st e he
  rfl

/-- Function-call tags of the second loop's yields: grouped per step,
in increasing plan order starting at `i`. -/
theorem funcTags_tailSection (segKey : Bool) (recs : List TelemetryRecord)
    (steps : List WorkflowStep) :
    ∀ i, (∀ t ∈ (yieldsOf (tailSection segKey recs i steps)).filterMap funcStepIdx,
        i ≤ t)
      ∧ List.Pairwise (· ≤ ·)
          ((yieldsOf (tailSection segKey recs i steps)).filterMap funcStepIdx) := by
  induction steps with
  | nil =>
    intro i
    refine ⟨?_, ?_⟩
    · intro t ht
      simp [tailSection, yieldsOf] at ht
    · simp [tailSection, yieldsOf]
  | cons st rest ih =>
    intro i
    have hsplit : (yieldsOf (tailSection segKey recs i (st :: rest))).filterMap
        funcStepIdx
        = List.replicate (stepTraceEvents i st).length i
          ++ (yieldsOf (tailSection segKey recs (i + 1) rest)).filterMap
              funcStepIdx := by
      rw [tailSection, yieldsOf_append, yieldsOf_append, List.filterMap_append,
        List.filterMap_append, yieldsOf_yields, funcStepIdx_stepTraceEvents]
      cases segKey <;> simp [yieldsOf_telemetry, yieldsOf]
    constructor
    · intro t ht
      rw [hsplit, List.mem_append] at ht
      rcases ht with ht | ht
      · exact le_of_eq (List.eq_of_mem_replicate ht).symm
      · exact le_trans (Nat.le_succ i) ((ih (i + 1)).1 t ht)
    · rw [hsplit, List.pairwise_append]
      refine ⟨pairwise_le_replicate _ _, (ih (i + 1)).2, ?_⟩
      intro a ha b hb
      rw [List.eq_of_mem_replicate ha]
      exact le_trans (Nat.le_succ i) ((ih (i + 1)).1 b hb)

/-- Phases of the first loop's yields are all 0. -/
theorem phase_fragSection (steps : List WorkflowStep) :
    ∀ i, ∀ e ∈ yieldsOf (fragSection i steps), phaseOf e = 0 := by
  induction steps with
  | nil => intro i e he; simp [fragSection, yieldsOf] at he
  | cons st rest ih =>
    intro i e he
    rw [fragSection, yieldsOf_append, List.mem_append, yieldsOf_yields] at he
    rcases he with he | he
    · unfold stepFragmentEvents at he
      by_cases h : truthy st.output_schema
      · rw [if_pos h, List.mem_map] at he
        obtain ⟨d, _, rfl⟩ := he
        rfl
      · rw [if_neg h, List.mem_map] at he
        obtain ⟨d, _, rfl⟩ := he
        rfl
    · exact ih (i + 1) e he

/-- Phases of the second loop's yields are all 1. -/
theorem phase_tailSection (segKey : Bool) (recs : List TelemetryRecord)
    (steps : List WorkflowStep) :
    ∀ i, ∀ e ∈ yieldsOf (tailSection segKey recs i steps), phaseOf e = 1 := by
  induction steps with
  | nil => intro i e he; simp [tailSection, yieldsOf] at he
  | cons st rest ih =>
    intro i e he
    rw [tailSection, yieldsOf_append, yieldsOf_append, List.mem_append,
      List.mem_append, yieldsOf_yields] at he
    rcases he with (he | he) | he
    · cases segKey
      · simp [yieldsOf] at he
      · rw [if_pos rfl, yieldsOf_telemetry] at he
        simp at he
    · obtain ⟨fn, args, resp, rfl⟩ := stepTraceEvents_shape i st e he
      rfl
    · exact ih (i + 1) e he

/-! ## Membership of failure records (`except` branch) -/

theorem failLoop_mem (ctx : InvokeCtx) (err : String) (steps : List WorkflowStep) :
    ∀ i j st, steps[j]? = some st →
      Action.telemetry (failureRecord ctx err (i + j) st) ∈ failLoop ctx err i steps := by
  induction steps with
  | nil => intro i j st h; simp at h
  | cons s rest ih =>
    intro i j st h
    match j with
    | 0 =>
      simp only [List.getElem?_cons_zero, Option.some_inj] at h
      subst h
      exact List.mem_cons_self _ _
    | j + 1 =>
      rw [List.getElem?_cons_succ] at h
      have := ih (i + 1) j st h
      rw [show i + 1 + j = i + (j + 1) by omega] at this
      exact List.mem_cons_of_mem _ this

/-! ## Function-call extraction lemmas -/

theorem map_const_replicate {α : Type} (f : α → Nat) (i : Nat) :
    ∀ l : List α, (∀ a ∈ l, f a = i) → l.map f = List.replicate l.length i := by
  intro l
  induction l with
  | nil => intro _; rfl
  | cons a l ih =>
    intro h
    rw [List.map_cons, h a (List.mem_cons_self a l), List.length_cons,
      List.replicate_succ, ih fun x hx => h x (List.mem_cons_of_mem _ hx)]

theorem funcDataAt_phase0 (j : Nat) (e : FragmentEvent) (h : phaseOf e = 0) :
    funcDataAt j e = none := by
  cases e with
  | token _ _ _ => rfl
  | parsedLine _ _ _ => rfl
  | functionCall _ _ _ _ _ => exact absurd h (by simp [phaseOf])
  | errorEv _ => exact absurd h (by simp [phaseOf])

theorem funcStepIdx_phase0 (e : FragmentEvent) (h : phaseOf e = 0) :
    funcStepIdx e = none := by
  cases e with
  | token _ _ _ => rfl
  | parsedLine _ _ _ => rfl
  | functionCall _ _ _ _ _ => exact absurd h (by simp [phaseOf])
  | errorEv _ => exact absurd h (by simp [phaseOf])

theorem funcDataAt_fragSection (j : Nat) (steps : List WorkflowStep) (i : Nat) :
    (yieldsOf (fragSection i steps)).filterMap (funcDataAt j) = [] := by
  rw [List.filterMap_eq_nil_iff]
  exact fun e he => funcDataAt_phase0 j e (phase_fragSection steps i e he)

theorem funcStepIdx_fragSection (steps : List WorkflowStep) (i : Nat) :
    (yieldsOf (fragSection i steps)).filterMap funcStepIdx = [] := by
  rw [List.filterMap_eq_nil_iff]
  exact fun e he => funcStepIdx_phase0 e (phase_fragSection steps i e he)

theorem funcDataAt_stepTraceEvents_eq (i : Nat) (st : WorkflowStep) :
    (stepTraceEvents i st).filterMap (funcDataAt i) = toolCallData st := by
  unfold stepTraceEvents toolCallData
  rw [List.filterMap_filterMap]
  have h : ∀ s : ToolCall,
      ((if s.tool ≠ "" ∧ s.toolInput ≠ "" then
          some (FragmentEvent.functionCall i st.agent_name s.tool s.toolInput
            s.response)
        else none).bind (funcDataAt i))
      = (if s.tool ≠ "" ∧ s.toolInput ≠ "" then
          some (s.tool, s.toolInput, s.response) else none) := by
    intro s
    by_cases hc : s.tool ≠ "" ∧ s.toolInput ≠ ""
    · rw [if_pos hc, if_pos hc, Option.some_bind]
      simp [funcDataAt]
    · rw [if_neg hc, if_neg hc, Option.none_bind]
  simp only [h]

theorem funcDataAt_stepTraceEvents_ne (i j : Nat) (st : WorkflowStep) (h : i ≠ j) :
    (stepTraceEvents i st).filterMap (funcDataAt j) = [] := by
  rw [List.filterMap_eq_nil_iff]
  intro e he
  obtain ⟨fn, args, resp, rfl⟩ := stepTraceEvents_shape i st e he
  simp [funcDataAt, h]

theorem funcDataAt_tailSection_lt (segKey : Bool) (recs : List TelemetryRecord)
    (steps : List WorkflowStep) :
    ∀ i j, j < i →
      (yieldsOf (tailSection segKey recs i steps)).filterMap (funcDataAt j) = [] := by
  induction steps with
  | nil => intro i j _; simp [tailSection, yieldsOf]
  | cons st rest ih =>
    intro i j hj
    rw [tailSection, yieldsOf_append, yieldsOf_append, List.filterMap_append,
      List.filterMap_append, yieldsOf_yields,
      funcDataAt_stepTraceEvents_ne i j st (by omega), ih (i + 1) j (by omega)]
    cases segKey <;> simp [yieldsOf_telemetry, yieldsOf]

theorem funcDataAt_tailSection (segKey : Bool) (recs : List TelemetryRecord)
    (steps : List WorkflowStep) :
    ∀ i j st, steps[j]? = some st →
      (yieldsOf (tailSection segKey recs i steps)).filterMap (funcDataAt (i + j))
        = toolCallData st := by
  induction steps with
  | nil => intro i j st h; simp at h
  | cons s rest ih =>
    intro i j st h
    rw [tailSection, yieldsOf_append, yieldsOf_append, List.filterMap_append,
      List.filterMap_append, yieldsOf_yields]
    have hkey : (yieldsOf (if segKey then recs.map Action.telemetry
        else [])).filterMap (funcDataAt (i + j)) = [] := by
      cases segKey <;> simp [yieldsOf_telemetry, yieldsOf]
    match j with
    | 0 =>
      simp only [List.getElem?_cons_zero, Option.some_inj] at h
      subst h
      rw [hkey, Nat.add_zero, funcDataAt_stepTraceEvents_eq,
        funcDataAt_tailSection_lt segKey recs rest (i + 1) i (by omega)]
      simp
    | j + 1 =>
      rw [List.getElem?_cons_succ] at h
      have hne : i ≠ i + (j + 1) := by omega
      rw [hkey, funcDataAt_stepTraceEvents_ne i (i + (j + 1)) s hne]
      have := ih (i + 1) j st h
      rw [show i + 1 + j = i + (j + 1) by omega] at this
      rw [this]
      simp

/-! ## JSON round-trip: digits -/

theorem natToChars_eq_lt {n : Nat} (h : n < 10) :
    natToChars n = [Char.ofNat (48 + n)] := by
  unfold natToChars
  rw [dif_pos h]

theorem natToChars_eq_ge {n : Nat} (h : ¬n < 10) :
    natToChars n = natToChars (n / 10) ++ [Char.ofNat (48 + n % 10)] := by
  conv_lhs => unfold natToChars
  rw [dif_neg h]

theorem isDigitChar_digit {d : Nat} (h : d < 10) :
    isDigitChar (Char.ofNat (48 + d)) = true := by
  interval_cases d <;> decide

theorem digitVal_digit {d : Nat} (h : d < 10) :
    digitVal (Char.ofNat (48 + d)) = some d := by
  interval_cases d <;> decide

theorem natToChars_ne_nil (n : Nat) : natToChars n ≠ [] := by
  by_cases h : n < 10
  · rw [natToChars_eq_lt h]
    simp
  · rw [natToChars_eq_ge h]
    simp

theorem natToChars_all_digits (n : Nat) :
    ∀ x ∈ natToChars n, isDigitChar x = true := by
  induction n using Nat.strong_induction_on with
  | _ n ih =>
    by_cases h : n < 10
    · rw [natToChars_eq_lt h]
      intro x hx
      rw [List.mem_singleton] at hx
      subst hx
      exact isDigitChar_digit h
    · rw [natToChars_eq_ge h]
      intro x hx
      rw [List.mem_append] at hx
      rcases hx with hx | hx
      · exact ih (n / 10) (Nat.div_lt_self (by omega) (by omega)) x hx
      · rw [List.mem_singleton] at hx
        subst hx
        exact isDigitChar_digit (Nat.mod_lt n (by omega))

theorem isDigitChar_ne {c : Char} (h : isDigitChar c = true) (x : Char)
    (hx : isDigitChar x = false) : c ≠ x := by
  intro he
  rw [he, hx] at h
  cases h

theorem isWsChar_of_digit {c : Char} (h : isDigitChar c = true) :
    isWsChar c = false := by
  by_cases h1 : c = ' '
  · subst h1; exact absurd h (by decide)
  by_cases h2 : c = '\n'
  · subst h2; exact absurd h (by decide)
  by_cases h3 : c = '\t'
  · subst h3; exact absurd h (by decide)
  by_cases h4 : c = '\r'
  · subst h4; exact absurd h (by decide)
  unfold isWsChar
  simp [h1, h2, h3, h4]

theorem parseDigitsAux_stop (acc : Nat) (cs : List Char) (h : noDigitHead cs) :
    parseDigitsAux acc cs = (acc, cs) := by
  cases cs with
  | nil => rfl
  | cons c l =>
    unfold parseDigitsAux digitVal
    unfold noDigitHead at h
    rw [h]
    simp

theorem parseDigitsAux_cons_digit (acc : Nat) {c : Char} {d : Nat}
    (h : digitVal c = some d) (l : List Char) :
    parseDigitsAux acc (c :: l) = parseDigitsAux (acc * 10 + d) l := by
  conv_lhs => unfold parseDigitsAux
  rw [h]

theorem parseDigitsAux_natToChars (n : Nat) :
    ∀ acc rest, parseDigitsAux acc (natToChars n ++ rest)
      = parseDigitsAux (acc * 10 ^ (natToChars n).length + n) rest := by
  induction n using Nat.strong_induction_on with
  | _ n ih =>
    intro acc rest
    by_cases h : n < 10
    · rw [natToChars_eq_lt h, List.cons_append, List.nil_append,
        parseDigitsAux_cons_digit acc (digitVal_digit h) rest]
      norm_num
    · rw [natToChars_eq_ge h, List.append_assoc, List.cons_append,
        List.nil_append,
        ih (n / 10) (Nat.div_lt_self (by omega) (by omega)) acc _,
        parseDigitsAux_cons_digit _ (digitVal_digit (Nat.mod_lt n (by omega)))
          rest]
      have harith : (acc * 10 ^ (natToChars (n / 10)).length + n / 10) * 10
            + n % 10
          = acc * 10 ^ (natToChars (n / 10) ++ [Char.ofNat (48 + n % 10)]).length
            + n := by
        rw [List.length_append, List.length_singleton, pow_succ,
          ← Nat.mul_assoc, Nat.add_mul, Nat.add_assoc]
        omega
      rw [harith]

theorem parseDigits_natToChars (n : Nat) (rest : List Char)
    (hrest : noDigitHead rest) :
    parseDigits (natToChars n ++ rest) = some (n, rest) := by
  have hrun : parseDigitsAux 0 (natToChars n ++ rest) = (n, rest) := by
    rw [parseDigitsAux_natToChars n 0 rest, Nat.zero_mul, Nat.zero_add,
      parseDigitsAux_stop n rest hrest]
  cases hcs : natToChars n with
  | nil => exact absurd hcs (natToChars_ne_nil n)
  | cons c l =>
    have hc : isDigitChar c = true := by
      apply natToChars_all_digits n
      rw [hcs]
      exact List.mem_cons_self c l
    rw [hcs, List.cons_append] at hrun
    unfold parseDigits
    show (if isDigitChar c = true then some (parseDigitsAux 0 (c :: (l ++ rest)))
      else none) = some (n, rest)
    rw [if_pos hc, hrun]

/-! ## JSON round-trip: whitespace and strings -/

theorem skipWs_cons_not {c : Char} (h : isWsChar c = false) (l : List Char) :
    skipWs (c :: l) = c :: l := by
  unfold skipWs
  rw [h]
  simp

theorem escBody_cons (c : Char) (s : List Char) :
    escBody (c :: s) = escapeChar c ++ escBody s := by
  unfold escBody
  rw [List.map_cons, List.flatten_cons]

theorem parseStrBody_close (X : List Char) : parseStrBody ('"' :: X) = some ([], X) := by
  rw [parseStrBody.eq_def]
  rfl

theorem parseStrBody_escape {ec d : Char} (hu : unescape ec = some d) (X : List Char) :
    parseStrBody ('\\' :: ec :: X)
      = match parseStrBody X with
        | none => none
        | some (s, r) => some (d :: s, r) := by
  rw [parseStrBody.eq_def]
  show (match unescape ec with
    | none => none
    | some d =>
      match parseStrBody X with
      | none => none
      | some (s, r) => some (d :: s, r)) = _
  rw [hu]

theorem parseStrBody_raw {c : Char} (h1 : c ≠ '"') (h2 : c ≠ '\\') (X : List Char) :
    parseStrBody (c :: X)
      = match parseStrBody X with
        | none => none
        | some (s, r) => some (c :: s, r) := by
  rw [parseStrBody.eq_def]
  show (if c = '"' then some ([], X)
    else if c = '\\' then
      match X with
      | [] => none
      | e :: rest2 =>
        match unescape e with
        | none => none
        | some d =>
          match parseStrBody rest2 with
          | none => none
          | some (s, r) => some (d :: s, r)
    else
      match parseStrBody X with
      | none => none
      | some (s, r) => some (c :: s, r)) = _
  rw [if_neg h1, if_neg h2]

theorem parseStrBody_escBody (s : List Char) :
    ∀ rest, parseStrBody (escBody s ++ '"' :: rest) = some (s, rest) := by
  induction s with
  | nil =>
    intro rest
    rw [show escBody [] = [] from by simp [escBody], List.nil_append,
      parseStrBody_close]
  | cons c s ih =>
    intro rest
    rw [escBody_cons, List.append_assoc]
    by_cases h1 : c = '"'
    · subst h1
      rw [show escapeChar '"' = ['\\', '"'] from rfl, List.cons_append,
        List.cons_append, List.nil_append,
        parseStrBody_escape (show unescape '"' = some '"' from rfl), ih rest]
    by_cases h2 : c = '\\'
    · subst h2
      rw [show escapeChar '\\' = ['\\', '\\'] from rfl, List.cons_append,
        List.cons_append, List.nil_append,
        parseStrBody_escape (show unescape '\\' = some '\\' from rfl), ih rest]
    by_cases h3 : c = '\n'
    · subst h3
      rw [show escapeChar '\n' = ['\\', 'n'] from rfl, List.cons_append,
        List.cons_append, List.nil_append,
        parseStrBody_escape (show unescape 'n' = some '\n' from rfl), ih rest]
    by_cases h4 : c = '\t'
    · subst h4
      rw [show escapeChar '\t' = ['\\', 't'] from rfl, List.cons_append,
        List.cons_append, List.nil_append,
        parseStrBody_escape (show unescape 't' = some '\t' from rfl), ih rest]
    by_cases h5 : c = '\r'
    · subst h5
      rw [show escapeChar '\r' = ['\\', 'r'] from rfl, List.cons_append,
        List.cons_append, List.nil_append,
        parseStrBody_escape (show unescape 'r' = some '\r' from rfl), ih rest]
    by_cases h6 : c = Char.ofNat 8
    · subst h6
      rw [show escapeChar (Char.ofNat 8) = ['\\', 'b'] from rfl, List.cons_append,
        List.cons_append, List.nil_append,
        parseStrBody_escape (show unescape 'b' = some (Char.ofNat 8) from rfl),
        ih rest]
    by_cases h7 : c = Char.ofNat 12
    · subst h7
      rw [show escapeChar (Char.ofNat 12) = ['\\', 'f'] from rfl, List.cons_append,
        List.cons_append, List.nil_append,
        parseStrBody_escape (show unescape 'f' = some (Char.ofNat 12) from rfl),
        ih rest]
    · rw [show escapeChar c = [c] from by
        rw [escapeChar, if_neg h1, if_neg h2, if_neg h3, if_neg h4, if_neg h5,
          if_neg h6, if_neg h7],
        List.cons_append, List.nil_append, parseStrBody_raw h1 h2, ih rest]

/-! ## JSON round-trip: serialization shapes -/

theorem dumps_null : dumps .null = ['n', 'u', 'l', 'l'] := by
  simp [dumps, nullChars]

theorem dumps_true : dumps (.bool true) = ['t', 'r', 'u', 'e'] := by
  simp [dumps, trueChars]

theorem dumps_false : dumps (.bool false) = ['f', 'a', 'l', 's', 'e'] := by
  simp [dumps, falseChars]

theorem dumps_num (n : Int) : dumps (.num n) = intToChars n := by simp [dumps]

theorem dumps_str (s : List Char) : dumps (.str s) = dumpStr s := by simp [dumps]

theorem dumps_arr_nil : dumps (.arr []) = ['[', ']'] := by simp [dumps]

theorem dumps_arr_cons (x : Json) (xs : List Json) :
    dumps (.arr (x :: xs)) = '[' :: (dumps x ++ dumpsArrTail xs) ++ [']'] := by
  simp [dumps]

theorem dumps_obj_nil : dumps (.obj []) = ['{', '}'] := by simp [dumps]

theorem dumps_obj_cons (m : List Char × Json) (ms : List (List Char × Json)) :
    dumps (.obj (m :: ms)) = '{' :: (dumpsMember m ++ dumpsObjTail ms) ++ ['}'] := by
  simp [dumps]

theorem dumpsArrTail_nil : dumpsArrTail [] = [] := by simp [dumpsArrTail]

theorem dumpsArrTail_cons (x : Json) (xs : List Json) :
    dumpsArrTail (x :: xs) = ',' :: ' ' :: (dumps x ++ dumpsArrTail xs) := by
  simp [dumpsArrTail]

theorem dumpsObjTail_nil : dumpsObjTail [] = [] := by simp [dumpsObjTail]

theorem dumpsObjTail_cons (m : List Char × Json) (ms : List (List Char × Json)) :
    dumpsObjTail (m :: ms) = ',' :: ' ' :: (dumpsMember m ++ dumpsObjTail ms) := by
  simp [dumpsObjTail]

theorem dumpsMember_shape (k : List Char) (mv : Json) (X : List Char) :
    dumpsMember (k, mv) ++ X
      = '"' :: (escBody k ++ '"' :: ':' :: ' ' :: (dumps mv ++ X)) := by
  rw [show dumpsMember (k, mv) = dumpStr k ++ ':' :: ' ' :: dumps mv from by
    simp [dumpsMember]]
  unfold dumpStr
  simp

/-- The first character of a serialized value: never whitespace, never
a closing bracket, brace or comma. -/
theorem dumps_head_spec (v : Json) : ∃ c l, dumps v = c :: l
    ∧ isWsChar c = false ∧ c ≠ ']' ∧ c ≠ '}' := by
  cases v with
  | null => exact ⟨'n', _, dumps_null, by decide, by decide, by decide⟩
  | bool b =>
    cases b with
    | true => exact ⟨'t', _, dumps_true, by decide, by decide, by decide⟩
    | false => exact ⟨'f', _, dumps_false, by decide, by decide, by decide⟩
  | num n =>
    rw [dumps_num]
    cases n with
    | ofNat m =>
      rw [show intToChars (Int.ofNat m) = natToChars m from rfl]
      cases hcs : natToChars m with
      | nil => exact absurd hcs (natToChars_ne_nil m)
      | cons c l =>
        have hdig : isDigitChar c = true := by
          apply natToChars_all_digits m
          rw [hcs]
          exact List.mem_cons_self c l
        exact ⟨c, l, rfl, isWsChar_of_digit hdig,
          isDigitChar_ne hdig ']' (by decide),
          isDigitChar_ne hdig '}' (by decide)⟩
    | negSucc m =>
      exact ⟨'-', _, rfl, by decide, by decide, by decide⟩
  | str s =>
    rw [dumps_str]
    exact ⟨'"', _, rfl, by decide, by decide, by decide⟩
  | arr xs =>
    cases xs with
    | nil => exact ⟨'[', _, dumps_arr_nil, by decide, by decide, by decide⟩
    | cons x xs =>
      exact ⟨'[', _, by rw [dumps_arr_cons, List.cons_append], by decide,
        by decide, by decide⟩
  | obj ms =>
    cases ms with
    | nil => exact ⟨'{', _, dumps_obj_nil, by decide, by decide, by decide⟩
    | cons m ms =>
      exact ⟨'{', _, by rw [dumps_obj_cons, List.cons_append], by decide,
        by decide, by decide⟩

/-! ## JSON round-trip: leading whitespace elimination -/

theorem skipWs_cons_ws {c : Char} (h : isWsChar c = true) (l : List Char) :
    skipWs (c :: l) = skipWs l := by
  conv_lhs => unfold skipWs
  rw [h]
  simp

theorem parseVal_cons_ws (f : Nat) {c : Char} (hc : isWsChar c = true)
    (cs : List Char) : parseVal f (c :: cs) = parseVal f cs := by
  cases f with
  | zero => rfl
  | succ f =>
    unfold parseVal
    rw [skipWs_cons_ws hc]

theorem parseItems_cons_ws (f : Nat) {c : Char} (hc : isWsChar c = true)
    (cs : List Char) : parseItems f (c :: cs) = parseItems f cs := by
  cases f with
  | zero => rfl
  | succ f =>
    unfold parseItems
    rw [parseVal_cons_ws f hc cs]

theorem parseMembers_cons_ws (f : Nat) {c : Char} (hc : isWsChar c = true)
    (cs : List Char) : parseMembers f (c :: cs) = parseMembers f cs := by
  cases f with
  | zero => rfl
  | succ f =>
    unfold parseMembers
    rw [skipWs_cons_ws hc]

theorem noDigitHead_arrTail (xs : List Json) (rest : List Char) :
    noDigitHead (dumpsArrTail xs ++ ']' :: rest) := by
  cases xs with
  | nil =>
    rw [dumpsArrTail_nil, List.nil_append]
    exact (by decide : isDigitChar ']' = false)
  | cons y ys =>
    rw [dumpsArrTail_cons, List.cons_append]
    exact (by decide : isDigitChar ',' = false)

theorem noDigitHead_objTail (ms : List (List Char × Json)) (rest : List Char) :
    noDigitHead (dumpsObjTail ms ++ '}' :: rest) := by
  cases ms with
  | nil =>
    rw [dumpsObjTail_nil, List.nil_append]
    exact (by decide : isDigitChar '}' = false)
  | cons m ms =>
    rw [dumpsObjTail_cons, List.cons_append]
    exact (by decide : isDigitChar ',' = false)

/-! ## JSON round-trip: main induction on fuel -/

theorem jsize_pos (v : Json) : 1 ≤ jsize v := by
  cases v <;> simp [jsize]

theorem parse_roundtrip (f : Nat) :
    (∀ (v : Json) (rest : List Char), jsize v ≤ f → noDigitHead rest →
      parseVal f (dumps v ++ rest) = some (v, rest))
    ∧ (∀ (x : Json) (xs : List Json) (rest : List Char),
        jsizeItems (x :: xs) ≤ f → noDigitHead rest →
        parseItems f ((dumps x ++ dumpsArrTail xs) ++ ']' :: rest)
          = some (x :: xs, rest))
    ∧ (∀ (k : List Char) (mv : Json) (ms : List (List Char × Json))
        (rest : List Char), jsizeMembers ((k, mv) :: ms) ≤ f → noDigitHead rest →
        parseMembers f ((dumpsMember (k, mv) ++ dumpsObjTail ms) ++ '}' :: rest)
          = some ((k, mv) :: ms, rest)) := by
  induction f with
  | zero =>
    refine ⟨?_, ?_, ?_⟩
    · intro v rest hsize _
      exact absurd hsize (by have := jsize_pos v; omega)
    · intro x xs rest hsize _
      rw [show jsizeItems (x :: xs) = 1 + jsize x + jsizeItems xs from by
        simp [jsizeItems]] at hsize
      exact absurd hsize (by omega)
    · intro k mv ms rest hsize _
      rw [show jsizeMembers ((k, mv) :: ms) = 1 + jsize mv + jsizeMembers ms from by
        simp [jsizeMembers]] at hsize
      exact absurd hsize (by omega)
  | succ f ih =>
    obtain ⟨ihP, ihQ, ihR⟩ := ih
    refine ⟨?_, ?_, ?_⟩
    · -- parseVal on a serialized value
      intro v rest hsize hrest
      cases v with
      | null =>
        rw [dumps_null]
        rfl
      | bool b =>
        cases b with
        | true => rw [dumps_true]; rfl
        | false => rw [dumps_false]; rfl
      | num n =>
        rw [dumps_num]
        cases n with
        | ofNat m =>
          rw [show intToChars (Int.ofNat m) = natToChars m from rfl]
          cases hcs : natToChars m with
          | nil => exact absurd hcs (natToChars_ne_nil m)
          | cons c l =>
            have hdig : isDigitChar c = true := by
              apply natToChars_all_digits m
              rw [hcs]
              exact List.mem_cons_self c l
            rw [List.cons_append]
            unfold parseVal
            rw [skipWs_cons_not (isWsChar_of_digit hdig)]
            simp only [if_neg (isDigitChar_ne hdig '"' (by decide)),
              if_neg (isDigitChar_ne hdig '{' (by decide)),
              if_neg (isDigitChar_ne hdig '[' (by decide)),
              if_neg (isDigitChar_ne hdig 'n' (by decide)),
              if_neg (isDigitChar_ne hdig 't' (by decide)),
              if_neg (isDigitChar_ne hdig 'f' (by decide)),
              if_neg (isDigitChar_ne hdig '-' (by decide)),
              if_pos hdig]
            rw [show c :: (l ++ rest) = natToChars m ++ rest from by
              rw [hcs, List.cons_append], parseDigits_natToChars m rest hrest]
            rfl
        | negSucc m =>
          rw [show intToChars (Int.negSucc m) = '-' :: natToChars (m + 1) from rfl,
            List.cons_append]
          show (match parseDigits (natToChars (m + 1) ++ rest) with
            | none => none
            | some (n, r) => some (Json.num (-(n : Int)), r))
            = some (.num (Int.negSucc m), rest)
          rw [parseDigits_natToChars (m + 1) rest hrest]
          have hneg : -((m + 1 : Nat) : Int) = Int.negSucc m := by
            rw [Int.negSucc_eq]
            push_cast
            ring
          show some (Json.num (-((m + 1 : Nat) : Int)), rest)
            = some (.num (Int.negSucc m), rest)
          rw [hneg]
      | str s =>
        have hshape : dumps (.str s) ++ rest = '"' :: (escBody s ++ '"' :: rest) := by
          rw [dumps_str]
          unfold dumpStr
          simp
        rw [hshape]
        show (match parseStrBody (escBody s ++ '"' :: rest) with
          | none => none
          | some (t, r) => some (Json.str t, r)) = some (.str s, rest)
        rw [parseStrBody_escBody s rest]
      | arr xs =>
        cases xs with
        | nil =>
          rw [dumps_arr_nil]
          rfl
        | cons x xs =>
          have hsi : jsizeItems (x :: xs) ≤ f := by
            rw [show jsize (.arr (x :: xs)) = 1 + jsizeItems (x :: xs) from by
              simp [jsize]] at hsize
            omega
          have hshape : dumps (.arr (x :: xs)) ++ rest
              = '[' :: ((dumps x ++ dumpsArrTail xs) ++ ']' :: rest) := by
            rw [dumps_arr_cons]
            simp
          rw [hshape]
          obtain ⟨c, l, hdx, hcws, hcne, _⟩ := dumps_head_spec x
          show (match skipWs ((dumps x ++ dumpsArrTail xs) ++ ']' :: rest) with
            | [] => none
            | c2 :: r2 =>
              if c2 = ']' then some (Json.arr [], r2)
              else
                match parseItems f (c2 :: r2) with
                | none => none
                | some (vs, r3) => some (Json.arr vs, r3))
            = some (.arr (x :: xs), rest)
          rw [show (dumps x ++ dumpsArrTail xs) ++ ']' :: rest
              = c :: ((l ++ dumpsArrTail xs) ++ ']' :: rest) from by
            rw [hdx]; simp, skipWs_cons_not hcws]
          show (if c = ']' then
              some (Json.arr [], (l ++ dumpsArrTail xs) ++ ']' :: rest)
            else
              match parseItems f (c :: ((l ++ dumpsArrTail xs) ++ ']' :: rest)) with
              | none => none
              | some (vs, r3) => some (Json.arr vs, r3))
            = some (.arr (x :: xs), rest)
          rw [if_neg hcne,
            show c :: ((l ++ dumpsArrTail xs) ++ ']' :: rest)
              = (dumps x ++ dumpsArrTail xs) ++ ']' :: rest from by
              rw [hdx]; simp,
            ihQ x xs rest hsi hrest]
      | obj ms =>
        cases ms with
        | nil =>
          rw [dumps_obj_nil]
          rfl
        | cons m ms =>
          obtain ⟨k, mv⟩ := m
          have hsm : jsizeMembers ((k, mv) :: ms) ≤ f := by
            rw [show jsize (.obj ((k, mv) :: ms))
                = 1 + jsizeMembers ((k, mv) :: ms) from by simp [jsize]] at hsize
            omega
          have hshape : dumps (.obj ((k, mv) :: ms)) ++ rest
              = '{' :: ('"' :: (escBody k ++ '"' :: ':' :: ' '
                  :: (dumps mv ++ (dumpsObjTail ms ++ '}' :: rest)))) := by
            rw [dumps_obj_cons]
            simp only [List.cons_append, List.append_assoc,
              List.singleton_append, List.nil_append]
            rw [dumpsMember_shape k mv (dumpsObjTail ms ++ '}' :: rest)]
          rw [hshape]
          show (match parseMembers f ('"' :: (escBody k ++ '"' :: ':' :: ' '
              :: (dumps mv ++ (dumpsObjTail ms ++ '}' :: rest)))) with
            | none => none
            | some (ms2, r3) => some (Json.obj ms2, r3))
            = some (.obj ((k, mv) :: ms), rest)
          rw [← dumpsMember_shape k mv (dumpsObjTail ms ++ '}' :: rest),
            ← List.append_assoc, ihR k mv ms rest hsm hrest]
    · -- parseItems on a serialized element sequence
      intro x xs rest hsize hrest
      have hsx : jsize x ≤ f := by
        rw [show jsizeItems (x :: xs) = 1 + jsize x + jsizeItems xs from by
          simp [jsizeItems]] at hsize
        omega
      show (match parseVal f ((dumps x ++ dumpsArrTail xs) ++ ']' :: rest) with
        | none => none
        | some (v, r) =>
          match skipWs r with
          | [] => none
          | c :: r2 =>
            if c = ']' then some ([v], r2)
            else if c = ',' then
              match parseItems f r2 with
              | none => none
              | some (vs, r3) => some (v :: vs, r3)
            else none) = some (x :: xs, rest)
      rw [List.append_assoc,
        ihP x (dumpsArrTail xs ++ ']' :: rest) hsx (noDigitHead_arrTail xs rest)]
      cases xs with
      | nil =>
        rw [dumpsArrTail_nil, List.nil_append]
        rfl
      | cons y ys =>
        have hsy : jsizeItems (y :: ys) ≤ f := by
          rw [show jsizeItems (x :: y :: ys)
              = 1 + jsize x + jsizeItems (y :: ys) from by simp [jsizeItems]]
            at hsize
          omega
        rw [dumpsArrTail_cons]
        show (match parseItems f (' ' :: ((dumps y ++ dumpsArrTail ys)
            ++ ']' :: rest)) with
          | none => none
          | some (vs, r3) => some (x :: vs, r3)) = some (x :: y :: ys, rest)
        rw [parseItems_cons_ws f (by decide : isWsChar ' ' = true) _,
          ihQ y ys rest hsy hrest]
    · -- parseMembers on a serialized member sequence
      intro k mv ms rest hsize hrest
      have hsv : jsize mv ≤ f := by
        rw [show jsizeMembers ((k, mv) :: ms)
            = 1 + jsize mv + jsizeMembers ms from by simp [jsizeMembers]]
          at hsize
        omega
      rw [List.append_assoc, dumpsMember_shape k mv (dumpsObjTail ms ++ '}' :: rest)]
      show (match parseStrBody (escBody k ++ '"' :: ':' :: ' '
          :: (dumps mv ++ (dumpsObjTail ms ++ '}' :: rest))) with
        | none => none
        | some (kk, r1) =>
          match skipWs r1 with
          | [] => none
          | c1 :: r2 =>
            if c1 = ':' then
              match parseVal f r2 with
              | none => none
              | some (v, r3) =>
                match skipWs r3 with
                | [] => none
                | c2 :: r4 =>
                  if c2 = '}' then some ([(kk, v)], r4)
                  else if c2 = ',' then
                    match parseMembers f r4 with
                    | none => none
                    | some (ms2, r5) => some ((kk, v) :: ms2, r5)
                  else none
            else none) = some ((k, mv) :: ms, rest)
      rw [parseStrBody_escBody k _]
      show (match parseVal f (' ' :: (dumps mv ++ (dumpsObjTail ms
          ++ '}' :: rest))) with
        | none => none
        | some (v, r3) =>
          match skipWs r3 with
          | [] => none
          | c2 :: r4 =>
            if c2 = '}' then some ([(k, v)], r4)
            else if c2 = ',' then
              match parseMembers f r4 with
              | none => none
              | some (ms2, r5) => some ((k, v) :: ms2, r5)
            else none) = some ((k, mv) :: ms, rest)
      rw [parseVal_cons_ws f (by decide : isWsChar ' ' = true) _,
        ihP mv (dumpsObjTail ms ++ '}' :: rest) hsv (noDigitHead_objTail ms rest)]
      cases ms with
      | nil =>
        rw [dumpsObjTail_nil, List.nil_append]
        rfl
      | cons m2 ms2 =>
        obtain ⟨k2, mv2⟩ := m2
        have hsm2 : jsizeMembers ((k2, mv2) :: ms2) ≤ f := by
          rw [show jsizeMembers ((k, mv) :: (k2, mv2) :: ms2)
              = 1 + jsize mv + jsizeMembers ((k2, mv2) :: ms2) from by
            simp [jsizeMembers]] at hsize
          omega
        rw [dumpsObjTail_cons]
        show (match parseMembers f (' ' :: ((dumpsMember (k2, mv2)
            ++ dumpsObjTail ms2) ++ '}' :: rest)) with
          | none => none
          | some (ms3, r5) => some ((k, mv) :: ms3, r5))
          = some ((k, mv) :: (k2, mv2) :: ms2, rest)
        rw [parseMembers_cons_ws f (by decide : isWsChar ' ' = true) _,
          ihR k2 mv2 ms2 rest hsm2 hrest]

/-! ## JSON round-trip: fuel bound and top-level parse -/

mutual

theorem jsize_le_dumps : ∀ v : Json, jsize v ≤ (dumps v).length
  | .null => by rw [dumps_null]; simp [jsize]
  | .bool true => by rw [dumps_true]; simp [jsize]
  | .bool false => by rw [dumps_false]; simp [jsize]
  | .num n => by
    rw [dumps_num]
    have h1 : 1 ≤ (intToChars n).length := by
      cases n with
      | ofNat m =>
        rw [show intToChars (Int.ofNat m) = natToChars m from rfl]
        cases hcs : natToChars m with
        | nil => exact absurd hcs (natToChars_ne_nil m)
        | cons c l => simp
      | negSucc m => simp [intToChars]
    simpa [jsize] using h1
  | .str s => by
    rw [dumps_str]
    unfold dumpStr
    simp [jsize]
  | .arr [] => by rw [dumps_arr_nil]; simp [jsize, jsizeItems]
  | .arr (x :: xs) => by
    rw [dumps_arr_cons]
    have h1 := jsize_le_dumps x
    have h2 := jsizeItems_le_dumpsArrTail xs
    simp only [jsize, jsizeItems, List.length_append, List.length_cons,
      List.length_nil]
    omega
  | .obj [] => by rw [dumps_obj_nil]; simp [jsize, jsizeMembers]
  | .obj ((k, mv) :: ms) => by
    rw [dumps_obj_cons,
      show dumpsMember (k, mv) = dumpStr k ++ ':' :: ' ' :: dumps mv from by
        simp [dumpsMember]]
    have h1 := jsize_le_dumps mv
    have h2 := jsizeMembers_le_dumpsObjTail ms
    simp only [jsize, jsizeMembers, List.length_append, List.length_cons,
      List.length_nil]
    omega

theorem jsizeItems_le_dumpsArrTail : ∀ xs : List Json,
    jsizeItems xs ≤ (dumpsArrTail xs).length
  | [] => by rw [dumpsArrTail_nil]; simp [jsizeItems]
  | x :: xs => by
    rw [dumpsArrTail_cons]
    have h1 := jsize_le_dumps x
    have h2 := jsizeItems_le_dumpsArrTail xs
    simp only [jsizeItems, List.length_append, List.length_cons]
    omega

theorem jsizeMembers_le_dumpsObjTail : ∀ ms : List (List Char × Json),
    jsizeMembers ms ≤ (dumpsObjTail ms).length
  | [] => by rw [dumpsObjTail_nil]; simp [jsizeMembers]
  | (k, mv) :: ms => by
    rw [dumpsObjTail_cons,
      show dumpsMember (k, mv) = dumpStr k ++ ':' :: ' ' :: dumps mv from by
        simp [dumpsMember]]
    have h1 := jsize_le_dumps mv
    have h2 := jsizeMembers_le_dumpsObjTail ms
    simp only [jsizeMembers, List.length_append, List.length_cons]
    omega

end

/-- Parsing a serialized value back yields the value: the heart of the
round-trip law. -/
theorem parseJson_dumps (v : Json) : parseJson (dumps v) = some v := by
  unfold parseJson parseFuel
  have hf : jsize v ≤ (dumps v).length + 1 :=
    le_trans (jsize_le_dumps v) (Nat.le_succ _)
  have h := (parse_roundtrip ((dumps v).length + 1)).1 v [] hf trivial
  rw [List.append_nil] at h
  rw [h]
  rfl

/-! ## JSON round-trip: the serialization is newline-free -/

theorem nl_not_mem_escapeChar (c : Char) : '\n' ∉ escapeChar c := by
  unfold escapeChar
  split_ifs with h1 h2 h3 h4 h5 h6 h7
  · decide
  · decide
  · decide
  · decide
  · decide
  · decide
  · decide
  · intro hmem
    rw [List.mem_singleton] at hmem
    exact h3 hmem.symm

theorem nl_not_mem_escBody (s : List Char) : '\n' ∉ escBody s := by
  induction s with
  | nil =>
    rw [show escBody [] = [] from by simp [escBody]]
    simp
  | cons c s ih =>
    rw [escBody_cons]
    intro h
    rw [List.mem_append] at h
    rcases h with h | h
    · exact nl_not_mem_escapeChar c h
    · exact ih h

theorem nl_not_mem_natToChars (n : Nat) : '\n' ∉ natToChars n := by
  intro h
  exact absurd (natToChars_all_digits n '\n' h) (by decide)

theorem nl_not_mem_intToChars (n : Int) : '\n' ∉ intToChars n := by
  cases n with
  | ofNat m => exact nl_not_mem_natToChars m
  | negSucc m =>
    intro h
    rw [show intToChars (Int.negSucc m) = '-' :: natToChars (m + 1) from rfl,
      List.mem_cons] at h
    rcases h with h | h
    · exact absurd h (by decide)
    · exact nl_not_mem_natToChars (m + 1) h

theorem nl_not_mem_dumpStr (s : List Char) : '\n' ∉ dumpStr s := by
  unfold dumpStr
  intro h
  rw [List.mem_append, List.mem_cons, List.mem_singleton] at h
  rcases h with (h | h) | h
  · exact absurd h (by decide)
  · exact nl_not_mem_escBody s h
  · exact absurd h (by decide)

mutual

theorem nl_not_mem_dumps : ∀ v : Json, '\n' ∉ dumps v
  | .null => by rw [dumps_null]; decide
  | .bool true => by rw [dumps_true]; decide
  | .bool false => by rw [dumps_false]; decide
  | .num n => by rw [dumps_num]; exact nl_not_mem_intToChars n
  | .str s => by rw [dumps_str]; exact nl_not_mem_dumpStr s
  | .arr [] => by rw [dumps_arr_nil]; decide
  | .arr (x :: xs) => by
    rw [dumps_arr_cons]
    intro h
    rw [List.mem_append, List.mem_cons, List.mem_append, List.mem_singleton] at h
    rcases h with (h | h | h) | h
    · exact absurd h (by decide)
    · exact nl_not_mem_dumps x h
    · exact nl_not_mem_dumpsArrTail xs h
    · exact absurd h (by decide)
  | .obj [] => by rw [dumps_obj_nil]; decide
  | .obj (m :: ms) => by
    rw [dumps_obj_cons]
    intro h
    rw [List.mem_append, List.mem_cons, List.mem_append, List.mem_singleton] at h
    rcases h with (h | h | h) | h
    · exact absurd h (by decide)
    · exact nl_not_mem_dumpsMember m h
    · exact nl_not_mem_dumpsObjTail ms h
    · exact absurd h (by decide)

theorem nl_not_mem_dumpsArrTail : ∀ xs : List Json, '\n' ∉ dumpsArrTail xs
  | [] => by rw [dumpsArrTail_nil]; simp
  | x :: xs => by
    rw [dumpsArrTail_cons]
    intro h
    rw [List.mem_cons, List.mem_cons, List.mem_append] at h
    rcases h with h | h | h | h
    · exact absurd h (by decide)
    · exact absurd h (by decide)
    · exact nl_not_mem_dumps x h
    · exact nl_not_mem_dumpsArrTail xs h

theorem nl_not_mem_dumpsMember : ∀ m : List Char × Json, '\n' ∉ dumpsMember m
  | (k, mv) => by
    rw [show dumpsMember (k, mv) = dumpStr k ++ ':' :: ' ' :: dumps mv from by
      simp [dumpsMember]]
    intro h
    rw [List.mem_append, List.mem_cons, List.mem_cons] at h
    rcases h with h | h | h | h
    · exact nl_not_mem_dumpStr k h
    · exact absurd h (by decide)
    · exact absurd h (by decide)
    · exact nl_not_mem_dumps mv h

theorem nl_not_mem_dumpsObjTail : ∀ ms : List (List Char × Json),
    '\n' ∉ dumpsObjTail ms
  | [] => by rw [dumpsObjTail_nil]; simp
  | m :: ms => by
    rw [dumpsObjTail_cons]
    intro h
    rw [List.mem_cons, List.mem_cons, List.mem_append] at h
    rcases h with h | h | h | h
    · exact absurd h (by decide)
    · exact absurd h (by decide)
    · exact nl_not_mem_dumpsMember m h
    · exact nl_not_mem_dumpsObjTail ms h

end

theorem splitOnNL_no_nl : ∀ l : List Char, '\n' ∉ l → splitOnNL l = [l] := by
  intro l
  induction l with
  | nil => intro _; rfl
  | cons c rest ih =>
    intro h
    have hc : ¬c = '\n' := fun he => h (by rw [he]; exact List.mem_cons_self _ _)
    conv_lhs => unfold splitOnNL
    rw [if_neg hc, ih fun hm => h (List.mem_cons_of_mem c hm)]

/-! ## Error events never appear on the success path -/

theorem errorData_fragSection (steps : List WorkflowStep) (i : Nat) :
    (yieldsOf (fragSection i steps)).filterMap errorData = [] := by
  rw [List.filterMap_eq_nil_iff]
  intro e he
  have hph := phase_fragSection steps i e he
  cases e with
  | token _ _ _ => rfl
  | parsedLine _ _ _ => rfl
  | functionCall _ _ _ _ _ => rfl
  | errorEv _ => exact absurd hph (by simp [phaseOf])

theorem errorData_tailSection (segKey : Bool) (recs : List TelemetryRecord)
    (steps : List WorkflowStep) :
    ∀ i, (yieldsOf (tailSection segKey recs i steps)).filterMap errorData = [] := by
  induction steps with
  | nil => intro i; simp [tailSection, yieldsOf]
  | cons st rest ih =>
    intro i
    rw [tailSection, yieldsOf_append, yieldsOf_append, List.filterMap_append,
      List.filterMap_append, yieldsOf_yields, ih]
    have hblk : (stepTraceEvents i st).filterMap errorData = [] := by
      rw [List.filterMap_eq_nil_iff]
      intro e he
      obtain ⟨fn, args, resp, rfl⟩ := stepTraceEvents_shape i st e he
      rfl
    rw [hblk]
    cases segKey <;> simp [yieldsOf_telemetry, yieldsOf]

/-! ## Claim theorems -/

/-- C5: for a schema-bearing step whose accumulated producer text parses
as a structured value `v`, the emitted parsed-line fragments — the
newline split of `json.dumps` of the parse — concatenated back in
emission order and reparsed, yield exactly `v`. -/
theorem C5_schema_roundtrip (tokens : List (List Char)) (v : Json)
    (h : parseJson tokens.flatten = some v) :
    parseJson (schemaFragments tokens.flatten).flatten = some v := by
  have hpe : parsedOrEmpty tokens.flatten = v := by
    unfold parsedOrEmpty
    rw [h]
  unfold schemaFragments
  rw [hpe, splitOnNL_no_nl _ (nl_not_mem_dumps v),
    show ([dumps v] : List (List Char)).flatten = dumps v from by simp]
  exact parseJson_dumps v

/-- C5 witness: the round trip evaluated on a concrete two-token
producer emitting `[2]`. -/
theorem C5_schema_roundtrip_witness :
    parseJson ([['['], ['2', ']']] : List (List Char)).flatten
        = some (Json.arr [Json.num 2])
    ∧ parseJson (schemaFragments ([['['], ['2', ']']] :
          List (List Char)).flatten).flatten = some (Json.arr [Json.num 2]) :=
  ⟨rfl, C5_schema_roundtrip [['['], ['2', ']']] (Json.arr [Json.num 2]) rfl⟩

/-- C6: when a schema-bearing step's accumulated text fails to parse,
the step emits exactly one fragment, the serialized empty object, as an
ordinary parsed-line event; the parse error is only logged, and the
streaming success path emits no error event at all, so neither the
step nor the run is failed by it. -/
theorem C6_parse_failure_soft (i : Nat) (st : WorkflowStep)
    (hschema : truthy st.output_schema = true)
    (hfail : parseJson st.tokens.flatten = none) :
    stepFragmentEvents i st
        = [FragmentEvent.parsedLine i st.agent_name ['{', '}']]
    ∧ (stepFragmentEvents i st).length = 1
    ∧ (∀ (segKey : Bool) (ctx : InvokeCtx) (steps : List WorkflowStep),
        (yieldsOf (successTrace segKey ctx steps)).filterMap errorData = []) := by
  have hpe : parsedOrEmpty st.tokens.flatten = Json.obj [] := by
    unfold parsedOrEmpty
    rw [hfail]
  have hfrag : schemaFragments st.tokens.flatten = [['{', '}']] := by
    unfold schemaFragments
    rw [hpe, dumps_obj_nil, splitOnNL_no_nl _ (by decide)]
  refine ⟨?_, ?_, ?_⟩
  · unfold stepFragmentEvents
    rw [if_pos hschema, hfrag]
    rfl
  · unfold stepFragmentEvents
    rw [if_pos hschema, hfrag]
    rfl
  · intro segKey ctx steps
    rw [successTrace, yieldsOf_append, List.filterMap_append,
      errorData_fragSection, errorData_tailSection]
    rfl

/-- C6 witness: the theorem applied to a concrete schema step whose
producer emits the unparseable text `nope`. -/
theorem C6_parse_failure_soft_witness :
    truthy exSchemaStep.output_schema = true
    ∧ parseJson exSchemaStep.tokens.flatten = none
    ∧ stepFragmentEvents 0 exSchemaStep
        = [FragmentEvent.parsedLine 0 exSchemaStep.agent_name ['{', '}']] :=
  ⟨rfl, rfl, (C6_parse_failure_soft 0 exSchemaStep rfl rfl).1⟩

/-- C1: the claim says each step of the plan has exactly one
TelemetryRecord by finalization time, i.e. exactly `n` records on a
no-failure streaming run of `n` steps.  The code instead calls
`track_invocation` — which already emits one record for every step —
once per step of the second loop, so a no-failure streaming run with
the segment key set emits `n * n` records; evaluated at a concrete
2-step run this is 4 records, not 2. -/
theorem C1_streaming_success_telemetry_squared :
    (∀ (ctx : InvokeCtx) (steps : List WorkflowStep),
      (telemetryRecords (successTrace true ctx steps)).length
        = steps.length * steps.length)
    ∧ (telemetryRecords (successTrace true exCtx [exStepA, exStepB])).length = 4
    ∧ ([exStepA, exStepB] : List WorkflowStep).length = 2 :=
  ⟨telemetryRecords_successTrace_true_length, rfl, rfl⟩

/-- C2 counterexample: on a completed one-step streaming run (segment
key set), a consumer that stops reading after the first fragment
(the step has two) triggers no telemetry at all, while full consumption
yields a record — so telemetry is driven by stream consumption, not by
step completion, and a disconnecting consumer does prevent it. -/
theorem C2_disconnect_prevents_telemetry_cex :
    telemetryRecords (execUpToYields 1 (successTrace true exCtx [exStepA])) = []
    ∧ (telemetryRecords (successTrace true exCtx [exStepA])).length = 1
    ∧ fragCount [exStepA] = 2 :=
  ⟨rfl, rfl, rfl⟩

/-- C2 amended: on the streaming path every telemetry emission sits
after all token/parsed-line fragment yields in the generator, so a
consumer that stops requesting items at or before the last fragment
causes zero telemetry records to be emitted, regardless of the segment
key and of how the steps completed. -/
theorem C2_telemetry_requires_consumption (segKey : Bool) (ctx : InvokeCtx)
    (steps : List WorkflowStep) (k : Nat) (h : k ≤ fragCount steps) :
    telemetryRecords (execUpToYields k (successTrace segKey ctx steps)) = [] := by
  rw [successTrace,
    execUpToYields_all_yields (fragSection 0 steps)
      (fragSection_all_yields steps 0) _ k h]
  exact telemetryRecords_take_nil (telemetryRecords_fragSection steps 0) k

/-- C2 witness: the amended theorem applied at a concrete run. -/
theorem C2_telemetry_requires_consumption_witness :
    1 ≤ fragCount [exStepA]
    ∧ telemetryRecords (execUpToYields 1 (successTrace true exCtx [exStepA])) = [] :=
  ⟨by decide, C2_telemetry_requires_consumption true exCtx [exStepA] 1 (by decide)⟩

/-- C3 counterexample: with no per-step override, a run-level schema
`"B"` and an agent-declared schema `"A"` on the last step, the code
selects the run-level schema, not the agent's declared one, contrary to
the claim that the run-level schema applies only when the agent did not
declare a schema. -/
theorem C3_run_level_overrides_agent_cex :
    selectOutputSchema (some ['A']) none (some ['B']) true = some ['B']
    ∧ (some ['B'] : Option (List Char)) ≠ some ['A'] :=
  ⟨rfl, by decide⟩

/-- C3 amended: when the caller supplies a truthy run-level schema and
no truthy per-step override for the last step, the run-level schema is
applied to the last step even when the agent declared its own; and the
run-level schema never influences a non-last step. -/
theorem C3_schema_selection_amended (a o l : Option (List Char)) :
    (truthy o = false → truthy l = true →
      selectOutputSchema a o l true = l)
    ∧ (∀ b, selectOutputSchema a o l false = selectOutputSchema a o b false) := by
  constructor
  · intro ho hl
    rw [selectOutputSchema, if_neg (by simp [ho]), if_pos (by simp [hl])]
  · intro b
    by_cases ho : truthy o = true
    · rw [selectOutputSchema, if_pos ho, selectOutputSchema, if_pos ho]
    · rw [selectOutputSchema, if_neg ho, selectOutputSchema, if_neg ho]
      simp

/-- C3 witness: the amended theorem applied at a concrete selection. -/
theorem C3_schema_selection_amended_witness :
    truthy (none : Option (List Char)) = false
    ∧ truthy (some ['B']) = true
    ∧ selectOutputSchema (some ['A']) none (some ['B']) true = some ['B'] :=
  ⟨rfl, rfl, (C3_schema_selection_amended (some ['A']) none (some ['B'])).1 rfl rfl⟩

/-- C4 counterexample: a synchronous invocation whose run fails emits
no telemetry record at all (so none for the step that started) and the
failure leaves `invoke` as an uncaught exception rather than a handled
failure response — there is no error boundary on that path. -/
theorem C4_sync_failure_cex :
    (syncInvoke true exCtx [exStepA] (.error "boom")).1.length = 0
    ∧ (syncInvoke true exCtx [exStepA] (.error "boom")).2 = .error "boom" :=
  ⟨rfl, rfl⟩

/-- C4 amended: on the synchronous path a workflow failure propagates
out of the handler unchanged and zero telemetry records are emitted,
whatever the segment key and the plan. -/
theorem C4_sync_failure_uncaught (segKey : Bool) (ctx : InvokeCtx)
    (steps : List WorkflowStep) (e : String) :
    syncInvoke segKey ctx steps (.error e) = ([], .error e) := rfl

/-- C7: in the stream of a no-failure streaming run, the plan-position
tags of the token/parsed-line fragments form a non-decreasing sequence:
all fragments of step `i` are emitted before any fragment of any later
step, and fragments of different steps are never interleaved. -/
theorem C7_no_cross_step_interleaving (segKey : Bool) (ctx : InvokeCtx)
    (steps : List WorkflowStep) :
    List.Pairwise (· ≤ ·)
      ((yieldsOf (successTrace segKey ctx steps)).filterMap fragStepIdx) := by
  rw [successTrace, yieldsOf_append, List.filterMap_append,
    fragTags_tailSection segKey (track_invocation ctx steps) steps 0,
    List.append_nil]
  exact (fragTags_fragSection steps 0).2

/-- C8 counterexample: a completed streaming run whose only step records
exactly one tool invocation — with truthy name but empty `args` — emits
zero function-call events, while the claim promises one event per
recorded invocation. -/
theorem C8_falsy_args_skipped_cex :
    ((yieldsOf (successTrace true exCtx [exToolStep])).filterMap funcStepIdx).length
        = 0
    ∧ exToolStep.result.intermediate_steps.length = 1 :=
  ⟨rfl, rfl⟩

/-- C8 amended: for each plan position, the function-call events the
stream carries are exactly the step's recorded tool invocations whose
`function` and `args` are both non-empty, with name, arguments and tool
response; they are grouped per step in plan order, and every
function-call event is emitted after every token/parsed-line
fragment. -/
theorem C8_trace_events_amended (segKey : Bool) (ctx : InvokeCtx)
    (steps : List WorkflowStep) (j : Nat) (st : WorkflowStep)
    (h : steps[j]? = some st) :
    (yieldsOf (successTrace segKey ctx steps)).filterMap (funcDataAt j)
        = toolCallData st
    ∧ List.Pairwise (· ≤ ·)
        ((yieldsOf (successTrace segKey ctx steps)).map phaseOf)
    ∧ List.Pairwise (· ≤ ·)
        ((yieldsOf (successTrace segKey ctx steps)).filterMap funcStepIdx) := by
  refine ⟨?_, ?_, ?_⟩
  · rw [successTrace, yieldsOf_append, List.filterMap_append,
      funcDataAt_fragSection j steps 0, List.nil_append]
    have := funcDataAt_tailSection segKey (track_invocation ctx steps) steps 0 j st h
    rwa [Nat.zero_add] at this
  · rw [successTrace, yieldsOf_append, List.map_append, List.pairwise_append]
    refine ⟨?_, ?_, ?_⟩
    · rw [map_const_replicate phaseOf 0 _ (phase_fragSection steps 0)]
      exact pairwise_le_replicate _ _
    · rw [map_const_replicate phaseOf 1 _
        (phase_tailSection segKey (track_invocation ctx steps) steps 0)]
      exact pairwise_le_replicate _ _
    · intro a ha b hb
      rw [List.mem_map] at ha hb
      obtain ⟨ea, hea, rfl⟩ := ha
      obtain ⟨eb, heb, rfl⟩ := hb
      rw [phase_fragSection steps 0 ea hea,
        phase_tailSection segKey (track_invocation ctx steps) steps 0 eb heb]
      omega
  · rw [successTrace, yieldsOf_append, List.filterMap_append,
      funcStepIdx_fragSection steps 0, List.nil_append]
    exact (funcTags_tailSection segKey (track_invocation ctx steps) steps 0).2

/-- C8 witness: the amended theorem applied to a concrete run with one
surfaced tool invocation. -/
theorem C8_trace_events_amended_witness :
    ([exTraceStep] : List WorkflowStep)[0]? = some exTraceStep
    ∧ (yieldsOf (successTrace true exCtx [exTraceStep])).filterMap (funcDataAt 0)
        = toolCallData exTraceStep :=
  ⟨rfl, (C8_trace_events_amended true exCtx [exTraceStep] 0 exTraceStep rfl).1⟩

/-- C9: when `SEGMENT_WRITE_KEY` is unset, every telemetry call site is
guarded off, so zero telemetry records are emitted on the streaming
success path, on the streaming failure path, and on the synchronous
path. -/
theorem C9_no_segment_key_no_telemetry (ctx : InvokeCtx)
    (steps : List WorkflowStep) (k : Nat) (err : String)
    (r : Except String Unit) :
    telemetryRecords (successTrace false ctx steps) = []
    ∧ telemetryRecords (failureStreamTrace false ctx steps k err) = []
    ∧ (syncInvoke false ctx steps r).1 = [] := by
  refine ⟨telemetryRecords_successTrace_false ctx steps, ?_, ?_⟩
  · rw [failureStreamTrace, telemetryRecords_append,
      telemetryRecords_take_nil (telemetryRecords_successTrace_false ctx steps) k]
    rfl
  · cases r <;> rfl

/-- C10: whenever an exception surfaces on the streaming path (at
whatever point `k` of the normal trace) and the segment key is set, the
`except` handler emits, for every step of the plan — already completed
or not — a telemetry record carrying the error text and status code
500, with no usage counters and no step result. -/
theorem C10_failure_record_for_every_step (ctx : InvokeCtx)
    (steps : List WorkflowStep) (k : Nat) (err : String) (j : Nat)
    (st : WorkflowStep) (h : steps[j]? = some st) :
    ∃ r ∈ telemetryRecords (failureStreamTrace true ctx steps k err),
      r.stepIdx = j ∧ r.error = some err ∧ r.status_code = some 500
        ∧ r.usage = none ∧ r.result = none := by
  refine ⟨failureRecord ctx err j st, ?_, rfl, rfl, rfl, rfl, rfl⟩
  rw [telemetryRecords, List.mem_filterMap]
  refine ⟨Action.telemetry (failureRecord ctx err j st), ?_, rfl⟩
  rw [failureStreamTrace]
  refine List.mem_append_right _ ?_
  rw [exceptBranch, if_pos rfl]
  refine List.mem_cons_of_mem _ ?_
  have := failLoop_mem ctx err steps 0 j st h
  simpa using this

/-- C10 witness: the theorem applied to a concrete failing run. -/
theorem C10_failure_record_for_every_step_witness :
    ([exStepA] : List WorkflowStep)[0]? = some exStepA
    ∧ ∃ r ∈ telemetryRecords (failureStreamTrace true exCtx [exStepA] 0 "boom"),
        r.stepIdx = 0 ∧ r.error = some "boom" ∧ r.status_code = some 500
          ∧ r.usage = none ∧ r.result = none :=
  ⟨rfl, C10_failure_record_for_every_step exCtx [exStepA] 0 "boom" 0 exStepA rfl⟩

end Workflows
